import Mathlib

/-!
Verification development for the capture-store-replay pipeline of
prompt-line-rs.  The Rust sources embedded here are
src-tauri/src/history.rs (HistoryEntry, History), src-tauri/src/clipboard.rs
(simulate_paste, parse_key) and src-tauri/src/lib.rs (the simulate_paste
command's override resolution) together with src/hotkey.rs (listen_hotkey's
ordered registration loop).  Rust strings are modelled as List Char;
Rust str::trim / to_uppercase / to_lowercase / split / contains are modelled
by the rust-prefixed functions below (ASCII case folding, core whitespace
set).  DateTime timestamps are opaque to every claim and are modelled as
Nat.
-/

/-- Model of Rust char::is_whitespace restricted to the characters that can
occur in the shortcut and query strings of this program (space, tab, CR, LF);
this is Lean's Char.isWhitespace. -/
def rustIsWs (c : Char) : Bool := c.isWhitespace

/-- Model of Rust str::trim on a character list: remove leading and trailing
whitespace. -/
def rustTrim (s : List Char) : List Char :=
  ((s.dropWhile rustIsWs).reverse.dropWhile rustIsWs).reverse

/-- Model of Rust str::to_uppercase (ASCII fold, which is exact on every
token the program compares against). -/
def rustUpper (s : List Char) : List Char := s.map Char.toUpper

/-- Model of Rust str::to_lowercase (ASCII fold). -/
def rustLower (s : List Char) : List Char := s.map Char.toLower

/-- Model of Rust str::split with the separator char: splitting always
yields at least one (possibly empty) piece. -/
def rustSplit (sep : Char) : List Char → List (List Char)
  | [] => [[]]
  | c :: rest =>
    if c = sep then [] :: rustSplit sep rest
    else
      match rustSplit sep rest with
      | [] => [[c]]
      | t :: ts => (c :: t) :: ts

/-- Model of Rust str::contains on character lists: needle occurs as a
contiguous subsequence of hay. -/
def rustContains (hay needle : List Char) : Bool :=
  needle.isPrefixOf hay ||
    match hay with
    | [] => false
    | _ :: t => rustContains t needle

/-- history.rs HistoryEntry: text plus creation timestamp (chrono DateTime
modelled as Nat, opaque to all claims). -/
structure HistoryEntry where
  text : List Char
  timestamp : Nat
deriving DecidableEq, Repr

/-- history.rs History: the in-memory entry sequence (oldest first, as in
the source Vec) and the max_entries bound.  The file_path field carries no
behaviour relevant to the claims and is omitted. -/
structure History where
  entries : List HistoryEntry
  maxEntries : Nat
deriving DecidableEq, Repr

/-- history.rs trimming step shared by add and load:
if entries.len() > max_entries then entries.drain(0..len - max), i.e. the
oldest (front) entries are removed so that exactly max_entries remain. -/
def evictFront (maxE : Nat) (l : List HistoryEntry) : List HistoryEntry :=
  if l.length > maxE then l.drop (l.length - maxE) else l

/-- history.rs History::add, in-memory part: no-op when the trimmed text is
empty, otherwise push HistoryEntry::new(text) (the text stored exactly as
given) and drain the oldest entries past max_entries. -/
def History.add (h : History) (text : List Char) (ts : Nat) : History :=
  if (rustTrim text).isEmpty then h
  else { h with entries := evictFront h.maxEntries (h.entries ++ [⟨text, ts⟩]) }

/-- history.rs History::add including the trailing self.save() call; the
durable write is external I/O and is modelled by the save argument, a
function from the serialized entry list to a write outcome.  The in-memory
state is updated before save runs and is returned unchanged even when save
fails. -/
def History.addWith (save : List HistoryEntry → Except String Unit)
    (h : History) (text : List Char) (ts : Nat) :
    History × Except String Unit :=
  if (rustTrim text).isEmpty then (h, .ok ())
  else
    let h2 := History.add h text ts
    (h2, save h2.entries)

/-- history.rs History::entries: clone and reverse, most recent first. -/
def History.entriesList (h : History) : List HistoryEntry :=
  h.entries.reverse

/-- history.rs History::search: blank query returns entries(); otherwise
filter on case-insensitive substring containment, then reverse so the most
recent match comes first. -/
def History.search (h : History) (query : List Char) : List HistoryEntry :=
  if (rustTrim query).isEmpty then h.entriesList
  else
    let queryLower := rustLower query
    (h.entries.filter
      (fun e => rustContains (rustLower e.text) queryLower)).reverse

/-- history.rs History::search takes a shared reference and performs no
file operation; at the operation level it returns its result next to the
untouched pair of in-memory state and durable log contents. -/
def History.searchOp (h : History) (log : List HistoryEntry)
    (query : List Char) :
    List HistoryEntry × History × List HistoryEntry :=
  (History.search h query, h, log)

/-- history.rs History::load line loop: skip lines whose trimmed form is
empty, parse each remaining line independently (serde_json parsing is
external and is modelled by the parse argument), keep successfully parsed
entries in order and skip failures. -/
def parseLines (parse : List Char → Option HistoryEntry) :
    List (List Char) → List HistoryEntry
  | [] => []
  | l :: rest =>
    if (rustTrim l).isEmpty then parseLines parse rest
    else
      match parse l with
      | some e => e :: parseLines parse rest
      | none => parseLines parse rest

/-- history.rs History::new + History::load: a missing file (none) leaves
the history empty; otherwise the file lines are parsed and the result is
trimmed to the most recent max_entries records. -/
def History.newFromFile (parse : List Char → Option HistoryEntry)
    (maxE : Nat) (file : Option (List (List Char))) : History :=
  match file with
  | none => { entries := [], maxEntries := maxE }
  | some lines =>
    { entries := evictFront maxE (parseLines parse lines), maxEntries := maxE }

/-- clipboard.rs error outcomes of simulate_paste, one per literal error
string the source produces: the empty-shortcut error, the
no-main-key-specified error, and the unknown-key error naming the token. -/
inductive ParseError where
  | emptyShortcut : ParseError
  | noMainKey : ParseError
  | unknownKey : List Char → ParseError
deriving DecidableEq, Repr

deriving instance DecidableEq for Except

/-- Windows virtual-key codes used by clipboard.rs. -/
def VK_CONTROL : Nat := 0x11

/-- VK_SHIFT. -/
def VK_SHIFT : Nat := 0x10

/-- VK_MENU (the Alt key). -/
def VK_MENU : Nat := 0x12

/-- VK_LWIN (the left Windows key, the single super modifier). -/
def VK_LWIN : Nat := 0x5B

/-- VK_INSERT. -/
def VK_INSERT : Nat := 0x2D

def keyTable : List (List Char × Nat) :=
  [(['A'], 0x41),
   (['B'], 0x42),
   (['C'], 0x43),
   (['D'], 0x44),
   (['E'], 0x45),
   (['F'], 0x46),
   (['G'], 0x47),
   (['H'], 0x48),
   (['I'], 0x49),
   (['J'], 0x4A),
   (['K'], 0x4B),
   (['L'], 0x4C),
   (['M'], 0x4D),
   (['N'], 0x4E),
   (['O'], 0x4F),
   (['P'], 0x50),
   (['Q'], 0x51),
   (['R'], 0x52),
   (['S'], 0x53),
   (['T'], 0x54),
   (['U'], 0x55),
   (['V'], 0x56),
   (['W'], 0x57),
   (['X'], 0x58),
   (['Y'], 0x59),
   (['Z'], 0x5A),
   (['0'], 0x30),
   (['1'], 0x31),
   (['2'], 0x32),
   (['3'], 0x33),
   (['4'], 0x34),
   (['5'], 0x35),
   (['6'], 0x36),
   (['7'], 0x37),
   (['8'], 0x38),
   (['9'], 0x39),
   (['I', 'N', 'S', 'E', 'R', 'T'], VK_INSERT)]

/-- clipboard.rs parse_key: the arms of the source match, in source
order, as a lookup table; a token matching no arm is the unknown-key
error naming that token.  The table pairs are exactly the pattern/result
pairs of the source match. -/
def parse_key (key : List Char) : Except ParseError Nat :=
  match keyTable.find? (fun kv => kv.1 = key) with
  | some kv => .ok kv.2
  | none => .error (.unknownKey key)

/-- clipboard.rs simulate_paste classification loop over the split parts:
Ctrl/Control, Shift, Alt push their modifier code, Win/Super/Meta push
VK_LWIN, and any other token is parsed as the main key (overwriting a
previous one); a parse_key failure aborts immediately via the question-mark
operator. -/
def collectKeys : List (List Char) → List Nat → Option Nat →
    Except ParseError (List Nat × Option Nat)
  | [], modifiers, mainKey => .ok (modifiers, mainKey)
  | p :: rest, modifiers, mainKey =>
    let upper := rustUpper p
    if upper = "CTRL".data ∨ upper = "CONTROL".data then
      collectKeys rest (modifiers ++ [VK_CONTROL]) mainKey
    else if upper = "SHIFT".data then
      collectKeys rest (modifiers ++ [VK_SHIFT]) mainKey
    else if upper = "ALT".data then
      collectKeys rest (modifiers ++ [VK_MENU]) mainKey
    else if upper = "WIN".data ∨ upper = "SUPER".data ∨ upper = "META".data then
      collectKeys rest (modifiers ++ [VK_LWIN]) mainKey
    else
      match parse_key upper with
      | .ok k => collectKeys rest modifiers (some k)
      | .error e => .error e

/-- One synthesized keyboard event: a virtual-key code with the
KEYEVENTF_KEYUP flag (false = key down, true = key up). -/
structure KeyEvent where
  key : Nat
  keyUp : Bool
deriving DecidableEq, Repr

/-- Key-down event. -/
def keyDown (k : Nat) : KeyEvent := ⟨k, false⟩

/-- Key-up event. -/
def keyUp (k : Nat) : KeyEvent := ⟨k, true⟩

/-- clipboard.rs simulate_paste up to the SendInput call: split the
shortcut on the plus sign, trim each part, classify, then build the input
sequence modifiers-down, main key down, main key up, modifiers-up in
reverse order.  The SendInput injection itself is external I/O; its input
list is the value returned here. -/
def simulate_paste (shortcut : List Char) :
    Except ParseError (List KeyEvent) :=
  let parts := (rustSplit '+' shortcut).map rustTrim
  if parts.isEmpty then .error .emptyShortcut
  else
    match collectKeys parts [] none with
    | .error e => .error e
    | .ok (_, none) => .error .noMainKey
    | .ok (modifiers, some mainKey) =>
      .ok ((modifiers.map keyDown) ++ [keyDown mainKey, keyUp mainKey] ++
        ((modifiers.reverse).map keyUp))

/-- lib.rs AppPasteOverride from config.rs: a process name and the shortcut
to replay for it. -/
structure AppPasteOverride where
  process_name : List Char
  shortcut : List Char
deriving DecidableEq, Repr

/-- lib.rs simulate_paste command, override-resolution part: when a
previous foreground process was captured, the first override whose
non-empty process_name equals it after lowercasing both sides wins,
otherwise (no match, or no captured process) the configured default
shortcut is used. -/
def resolveShortcut (previousProcess : Option (List Char))
    (appOverrides : List AppPasteOverride)
    (defaultShortcut : List Char) : List Char :=
  match previousProcess with
  | some processName =>
    let processLower := rustLower processName
    match appOverrides.find?
        (fun o => !(o.process_name.isEmpty) &&
          rustLower o.process_name = processLower) with
    | some o => o.shortcut
    | none => defaultShortcut
  | none => defaultShortcut

/-- hotkey.rs listen_hotkey registration loop (same shape as the lib.rs
setup fallback loop): try the candidates strictly in order, stop at the
first one the OS accepts.  The OS RegisterHotKey outcome is modelled by the
accepts argument.  Returns the list of candidates actually attempted (in
order) and the registered candidate, if any. -/
def registerLoop {α : Type} (accepts : α → Bool) :
    List α → List α × Option α
  | [] => ([], none)
  | c :: rest =>
    if accepts c then ([c], some c)
    else
      let r := registerLoop accepts rest
      (c :: r.1, r.2)

/-- Classification of a single already-trimmed token by the modifier arms
of the simulate_paste match: the modifier virtual-key code it pushes, or
none when the token falls through to the main-key arm.  The branch
structure mirrors the source match exactly; note that CMD and COMMAND are
absent. -/
def modOf (p : List Char) : Option Nat :=
  let upper := rustUpper p
  if upper = "CTRL".data ∨ upper = "CONTROL".data then some VK_CONTROL
  else if upper = "SHIFT".data then some VK_SHIFT
  else if upper = "ALT".data then some VK_MENU
  else if upper = "WIN".data ∨ upper = "SUPER".data ∨ upper = "META".data then
    some VK_LWIN
  else none

/-- The successfully parsed main-key codes contributed by the non-modifier
tokens of a part list, in order of appearance. -/
def keyToks (parts : List (List Char)) : List Nat :=
  parts.filterMap
    (fun p =>
      if (modOf p).isSome then none else (parse_key (rustUpper p)).toOption)

/-- Overwrite semantics of the main_key variable in simulate_paste: each
successive recognized key replaces the previous one, so the last key of the
list wins (falling back to the initial value when the list is empty). -/
def lastWins (ks : List Nat) (mk : Option Nat) : Option Nat :=
  match ks with
  | [] => mk
  | k :: rest => lastWins rest (some k)

/-- Splitting a character list always yields at least one piece, exactly as
Rust str::split does; the parts.is_empty() branch of simulate_paste can
therefore never be taken. -/
theorem rustSplit_ne_nil (sep : Char) (s : List Char) :
    rustSplit sep s ≠ [] := by
  cases s with
  | nil => simp [rustSplit]
  | cons c rest =>
    simp only [rustSplit]
    split
    · simp
    · split <;> simp

/-- The drain step keeps exactly min max_entries len entries. -/
theorem evictFront_length (m : Nat) (l : List HistoryEntry) :
    (evictFront m l).length = min m l.length := by
  unfold evictFront
  split
  · rename_i h
    rw [List.length_drop]
    omega
  · rename_i h
    omega

/-- The drain step removes entries only from the front: the kept entries
are a suffix of the original sequence, so the surviving entries are the
most recent ones. -/
theorem evictFront_suffix (m : Nat) (l : List HistoryEntry) :
    evictFront m l <:+ l := by
  unfold evictFront
  split
  · exact List.drop_suffix _ _
  · exact List.suffix_refl l

/-- With a positive bound, draining after a push never removes the entry
just pushed: the freshly appended entry stays the last one. -/
theorem evictFront_append_getLast (m : Nat) (l : List HistoryEntry)
    (e : HistoryEntry) (hm : 1 ≤ m) :
    (evictFront m (l ++ [e])).getLast? = some e := by
  unfold evictFront
  split
  · rename_i hlen
    have hle : (l ++ [e]).length - m ≤ l.length := by
      simp at hlen ⊢
      omega
    rw [List.drop_append_of_le_length hle]
    exact List.getLast?_concat _
  · exact List.getLast?_concat _

/-- With a positive bound, the entry just pushed survives the drain. -/
theorem mem_evictFront_append (m : Nat) (l : List HistoryEntry)
    (e : HistoryEntry) (hm : 1 ≤ m) :
    e ∈ evictFront m (l ++ [e]) := by
  unfold evictFront
  split
  · rename_i hlen
    have hle : (l ++ [e]).length - m ≤ l.length := by
      simp at hlen ⊢
      omega
    rw [List.drop_append_of_le_length hle]
    simp
  · simp

/-- History.add keeps the max_entries bound of the store. -/
theorem History.add_maxEntries (h : History) (text : List Char) (ts : Nat) :
    (History.add h text ts).maxEntries = h.maxEntries := by
  unfold History.add
  split <;> rfl

/-- The load line loop distributes over concatenation of line blocks. -/
theorem parseLines_append (p : List Char → Option HistoryEntry)
    (l1 l2 : List (List Char)) :
    parseLines p (l1 ++ l2) = parseLines p l1 ++ parseLines p l2 := by
  induction l1 with
  | nil => simp [parseLines]
  | cons x xs ih =>
    simp only [List.cons_append, parseLines]
    split
    · exact ih
    · split <;> simp [ih]

/-- A line the parser rejects contributes nothing to the loaded entries. -/
theorem parseLines_skip (p : List Char → Option HistoryEntry)
    (bad : List Char) (hbad : p bad = none) (l2 : List (List Char)) :
    parseLines p (bad :: l2) = parseLines p l2 := by
  by_cases hb : (rustTrim bad).isEmpty = true
  · simp [parseLines, hb]
  · simp [parseLines, hb, hbad]

/-- The only failure parse_key produces is the unknown-key error naming the
token it was given. -/
theorem parse_key_error (k : List Char) (e : ParseError)
    (h : parse_key k = .error e) : e = .unknownKey k := by
  unfold parse_key at h
  split at h
  · exact Except.noConfusion h
  · injection h with h2
    exact h2.symm

/-- A token recognized by one of the modifier arms makes collectKeys push
its virtual-key code and continue. -/
theorem collectKeys_cons_mod (p : List Char) (rest : List (List Char))
    (mods : List Nat) (mk : Option Nat) (k : Nat) (h : modOf p = some k) :
    collectKeys (p :: rest) mods mk = collectKeys rest (mods ++ [k]) mk := by
  simp only [modOf] at h
  simp only [collectKeys]
  by_cases h1 : rustUpper p = "CTRL".data ∨ rustUpper p = "CONTROL".data
  · rw [if_pos h1] at h
    rw [if_pos h1]
    injection h with h
    rw [h]
  rw [if_neg h1] at h
  rw [if_neg h1]
  by_cases h2 : rustUpper p = "SHIFT".data
  · rw [if_pos h2] at h
    rw [if_pos h2]
    injection h with h
    rw [h]
  rw [if_neg h2] at h
  rw [if_neg h2]
  by_cases h3 : rustUpper p = "ALT".data
  · rw [if_pos h3] at h
    rw [if_pos h3]
    injection h with h
    rw [h]
  rw [if_neg h3] at h
  rw [if_neg h3]
  by_cases h4 : rustUpper p = "WIN".data ∨ rustUpper p = "SUPER".data ∨
      rustUpper p = "META".data
  · rw [if_pos h4] at h
    rw [if_pos h4]
    injection h with h
    rw [h]
  rw [if_neg h4] at h
  exact absurd h (by simp)

/-- A non-modifier token that parse_key accepts overwrites the main key and
collectKeys continues. -/
theorem collectKeys_cons_key (p : List Char) (rest : List (List Char))
    (mods : List Nat) (mk : Option Nat) (k : Nat)
    (hmod : modOf p = none) (hkey : parse_key (rustUpper p) = .ok k) :
    collectKeys (p :: rest) mods mk = collectKeys rest mods (some k) := by
  simp only [modOf] at hmod
  simp only [collectKeys]
  by_cases h1 : rustUpper p = "CTRL".data ∨ rustUpper p = "CONTROL".data
  · rw [if_pos h1] at hmod
    exact absurd hmod (by simp)
  rw [if_neg h1] at hmod
  rw [if_neg h1]
  by_cases h2 : rustUpper p = "SHIFT".data
  · rw [if_pos h2] at hmod
    exact absurd hmod (by simp)
  rw [if_neg h2] at hmod
  rw [if_neg h2]
  by_cases h3 : rustUpper p = "ALT".data
  · rw [if_pos h3] at hmod
    exact absurd hmod (by simp)
  rw [if_neg h3] at hmod
  rw [if_neg h3]
  by_cases h4 : rustUpper p = "WIN".data ∨ rustUpper p = "SUPER".data ∨
      rustUpper p = "META".data
  · rw [if_pos h4] at hmod
    exact absurd hmod (by simp)
  rw [if_neg h4]
  rw [hkey]

/-- A non-modifier token that parse_key rejects aborts collectKeys with the
parse error, exactly as the question-mark operator does in the source. -/
theorem collectKeys_cons_err (p : List Char) (rest : List (List Char))
    (mods : List Nat) (mk : Option Nat) (e : ParseError)
    (hmod : modOf p = none) (hkey : parse_key (rustUpper p) = .error e) :
    collectKeys (p :: rest) mods mk = .error e := by
  simp only [modOf] at hmod
  simp only [collectKeys]
  by_cases h1 : rustUpper p = "CTRL".data ∨ rustUpper p = "CONTROL".data
  · rw [if_pos h1] at hmod
    exact absurd hmod (by simp)
  rw [if_neg h1] at hmod
  rw [if_neg h1]
  by_cases h2 : rustUpper p = "SHIFT".data
  · rw [if_pos h2] at hmod
    exact absurd hmod (by simp)
  rw [if_neg h2] at hmod
  rw [if_neg h2]
  by_cases h3 : rustUpper p = "ALT".data
  · rw [if_pos h3] at hmod
    exact absurd hmod (by simp)
  rw [if_neg h3] at hmod
  rw [if_neg h3]
  by_cases h4 : rustUpper p = "WIN".data ∨ rustUpper p = "SUPER".data ∨
      rustUpper p = "META".data
  · rw [if_pos h4] at hmod
    exact absurd hmod (by simp)
  rw [if_neg h4]
  rw [hkey]

/-- When every part is a modifier token, the classification loop ends with
no main key. -/
theorem collectKeys_all_mods (parts : List (List Char)) :
    ∀ mods : List Nat, (∀ p ∈ parts, (modOf p).isSome = true) →
    ∃ mods2, collectKeys parts mods none = .ok (mods2, none) := by
  induction parts with
  | nil =>
    intro mods _
    exact ⟨mods, rfl⟩
  | cons p rest ih =>
    intro mods hall
    obtain ⟨k, hk⟩ := Option.isSome_iff_exists.mp (hall p (by simp))
    rw [collectKeys_cons_mod p rest mods none k hk]
    exact ih (mods ++ [k]) (fun q hq => hall q (List.mem_cons_of_mem p hq))

/-- When some part is neither a modifier token nor a recognized key, the
classification loop fails with an unknown-key error. -/
theorem collectKeys_has_unknown (parts : List (List Char)) :
    ∀ (mods : List Nat) (mk : Option Nat),
    (∃ p ∈ parts, modOf p = none ∧ (parse_key (rustUpper p)).isOk = false) →
    ∃ u, collectKeys parts mods mk = .error (.unknownKey u) := by
  induction parts with
  | nil =>
    intro _ _ h
    simp at h
  | cons p rest ih =>
    intro mods mk h
    cases hmo : modOf p with
    | some k =>
      rw [collectKeys_cons_mod p rest mods mk k hmo]
      apply ih
      obtain ⟨q, hq, hq1, hq2⟩ := h
      rcases List.mem_cons.mp hq with hqp | hqr
      · rw [hqp] at hq1
        rw [hq1] at hmo
        exact absurd hmo (by simp)
      · exact ⟨q, hqr, hq1, hq2⟩
    | none =>
      cases hpk : parse_key (rustUpper p) with
      | ok k =>
        rw [collectKeys_cons_key p rest mods mk k hmo hpk]
        apply ih
        obtain ⟨q, hq, hq1, hq2⟩ := h
        rcases List.mem_cons.mp hq with hqp | hqr
        · rw [hqp] at hq2
          rw [hpk] at hq2
          exact absurd hq2 (by simp [Except.isOk, Except.toBool])
        · exact ⟨q, hqr, hq1, hq2⟩
      | error e =>
        have he := parse_key_error _ _ hpk
        rw [he] at hpk
        rw [collectKeys_cons_err p rest mods mk _ hmo hpk]
        exact ⟨rustUpper p, rfl⟩

/-- When every part is either a modifier token or a recognized key token,
the classification loop succeeds; the modifiers come out in order of
appearance, and the main key is the overwrite-fold of the recognized key
tokens. -/
theorem collectKeys_good (parts : List (List Char)) :
    ∀ (mods : List Nat) (mk : Option Nat),
    (∀ p ∈ parts,
      (modOf p).isSome = true ∨ (parse_key (rustUpper p)).isOk = true) →
    collectKeys parts mods mk =
      .ok (mods ++ parts.filterMap modOf, lastWins (keyToks parts) mk) := by
  induction parts with
  | nil =>
    intro mods mk _
    simp [collectKeys, keyToks, lastWins]
  | cons p rest ih =>
    intro mods mk hall
    cases hmo : modOf p with
    | some k =>
      rw [collectKeys_cons_mod p rest mods mk k hmo]
      rw [ih (mods ++ [k]) mk (fun q hq => hall q (List.mem_cons_of_mem p hq))]
      have hkt : keyToks (p :: rest) = keyToks rest := by
        simp [keyToks, List.filterMap_cons, hmo]
      rw [hkt]
      simp [List.filterMap_cons, hmo]
    | none =>
      have hk : (parse_key (rustUpper p)).isOk = true := by
        rcases hall p (by simp) with hm | hk
        · rw [hmo] at hm
          exact absurd hm (by simp)
        · exact hk
      cases hpk : parse_key (rustUpper p) with
      | error e =>
        rw [hpk] at hk
        exact absurd hk (by simp [Except.isOk, Except.toBool])
      | ok k =>
        rw [collectKeys_cons_key p rest mods mk k hmo hpk]
        rw [ih mods (some k) (fun q hq => hall q (List.mem_cons_of_mem p hq))]
        have hkt : keyToks (p :: rest) = k :: keyToks rest := by
          simp [keyToks, List.filterMap_cons, hmo, hpk, Except.toOption]
        rw [hkt]
        simp [List.filterMap_cons, hmo, lastWins]

/-- The overwrite-fold of a non-empty key list is its last element: the
last recognized key token wins. -/
theorem lastWins_eq_getLast (ks : List Nat) :
    ∀ mk : Option Nat, ks ≠ [] → lastWins ks mk = ks.getLast? := by
  induction ks with
  | nil =>
    intro mk h
    exact absurd rfl h
  | cons k rest ih =>
    intro mk _
    cases rest with
    | nil => simp [lastWins]
    | cons a b =>
      rw [show lastWins (k :: a :: b) mk = lastWins (a :: b) (some k) from rfl]
      rw [ih (some k) (by simp)]
      rw [List.getLast?_cons_cons]

/-- The part list simulate_paste builds is never empty. -/
theorem parts_ne_empty (s : List Char) :
    ((rustSplit '+' s).map rustTrim).isEmpty = false := by
  cases hsp : rustSplit '+' s with
  | nil => exact absurd hsp (rustSplit_ne_nil '+' s)
  | cons a b => simp

/-- A single add keeps the store within its bound. -/
theorem History.add_length_le (h : History) (text : List Char) (ts : Nat)
    (hle : h.entries.length ≤ h.maxEntries) :
    (History.add h text ts).entries.length ≤ h.maxEntries := by
  unfold History.add
  split
  · exact hle
  · show (evictFront h.maxEntries (h.entries ++ [⟨text, ts⟩])).length ≤
      h.maxEntries
    rw [evictFront_length]
    exact Nat.min_le_left _ _

/-- Any finite sequence of adds keeps the store within its bound. -/
theorem History.foldl_add_length_le (ops : List (List Char × Nat)) :
    ∀ h : History, h.entries.length ≤ h.maxEntries →
    (ops.foldl (fun acc op => History.add acc op.1 op.2) h).entries.length ≤
      h.maxEntries := by
  induction ops with
  | nil =>
    intro h hle
    exact hle
  | cons op rest ih =>
    intro h hle
    simp only [List.foldl_cons]
    have h2 := ih (History.add h op.1 op.2)
      (by
        rw [History.add_maxEntries]
        exact History.add_length_le h op.1 op.2 hle)
    rw [History.add_maxEntries] at h2
    exact h2

/-- C1: for every max_entries bound, every add (and hence every finite
sequence of adds) keeps the entry count at most max_entries; when the bound
would be exceeded the oldest entries are removed first (the surviving
sequence is a suffix of the pushed sequence); and with max_entries = 2,
adding "a", "b", "c" in order leaves entries() equal to ["c", "b"]. -/
theorem claim_C1 :
    (∀ (h : History) (text : List Char) (ts : Nat),
      h.entries.length ≤ h.maxEntries →
      (History.add h text ts).entries.length ≤ h.maxEntries) ∧
    (∀ (h : History) (ops : List (List Char × Nat)),
      h.entries.length ≤ h.maxEntries →
      (ops.foldl (fun acc op => History.add acc op.1 op.2) h).entries.length ≤
        h.maxEntries) ∧
    (∀ (h : History) (text : List Char) (ts : Nat),
      (rustTrim text).isEmpty = false →
      (History.add h text ts).entries <:+ h.entries ++ [⟨text, ts⟩]) ∧
    History.entriesList
        (History.add (History.add (History.add ⟨[], 2⟩ "a".data 0)
          "b".data 1) "c".data 2) =
      [⟨"c".data, 2⟩, ⟨"b".data, 1⟩] := by
  refine ⟨fun h text ts hle => History.add_length_le h text ts hle,
    fun h ops hle => History.foldl_add_length_le ops h hle, ?_, by decide⟩
  intro h text ts ht
  unfold History.add
  simp only [ht, Bool.false_eq_true, if_false]
  exact evictFront_suffix _ _

/-- Witness for C1 at concrete inputs. -/
theorem claim_C1_witness :
    (History.add ⟨[⟨"x".data, 0⟩, ⟨"y".data, 1⟩], 2⟩ "z".data 2).entries.length
      ≤ 2 ∧
    (History.add ⟨[⟨"x".data, 0⟩], 1⟩ "z".data 2).entries <:+
      [⟨"x".data, 0⟩] ++ [⟨"z".data, 2⟩] :=
  ⟨claim_C1.1 ⟨[⟨"x".data, 0⟩, ⟨"y".data, 1⟩], 2⟩ "z".data 2 (by decide),
   claim_C1.2.2.1 ⟨[⟨"x".data, 0⟩], 1⟩ "z".data 2 (by decide)⟩

/-- C6: a blank query returns exactly entries(); a non-blank query returns
exactly the entries containing the query as a case-insensitive substring,
most recent first (filtering the most-recent-first view); and the search
operation leaves the in-memory state and the durable log unchanged. -/
theorem claim_C6 :
    (∀ (h : History) (q : List Char), (rustTrim q).isEmpty = true →
      History.search h q = History.entriesList h) ∧
    (∀ (h : History) (q : List Char), (rustTrim q).isEmpty = false →
      History.search h q =
        (History.entriesList h).filter
          (fun e => rustContains (rustLower e.text) (rustLower q))) ∧
    (∀ (h : History) (log : List HistoryEntry) (q : List Char),
      (History.searchOp h log q).2 = (h, log)) := by
  refine ⟨?_, ?_, fun h log q => rfl⟩
  · intro h q hq
    unfold History.search
    simp [hq]
  · intro h q hq
    unfold History.search
    simp only [hq, Bool.false_eq_true, if_false]
    unfold History.entriesList
    rw [List.filter_reverse]

/-- Witness for C6 at concrete inputs, including the Hello World example of
the specification. -/
theorem claim_C6_witness :
    History.search ⟨[⟨"Hello World".data, 0⟩, ⟨"foo".data, 1⟩], 10⟩
        "  ".data =
      History.entriesList ⟨[⟨"Hello World".data, 0⟩, ⟨"foo".data, 1⟩], 10⟩ ∧
    History.search ⟨[⟨"Hello World".data, 0⟩, ⟨"foo".data, 1⟩], 10⟩
        "WORLD".data =
      (History.entriesList
          ⟨[⟨"Hello World".data, 0⟩, ⟨"foo".data, 1⟩], 10⟩).filter
        (fun e => rustContains (rustLower e.text) (rustLower "WORLD".data)) :=
  ⟨claim_C6.1 ⟨[⟨"Hello World".data, 0⟩, ⟨"foo".data, 1⟩], 10⟩ "  ".data
      (by decide),
   claim_C6.2.1 ⟨[⟨"Hello World".data, 0⟩, ⟨"foo".data, 1⟩], 10⟩ "WORLD".data
      (by decide)⟩

/-- C7: a missing history file yields an empty history; a line the parser
rejects is skipped while every other line is still loaded; and after load
at most max_entries records remain, the survivors being a suffix (the most
recent records) of everything parsed. -/
theorem claim_C7 :
    (∀ (parse : List Char → Option HistoryEntry) (maxE : Nat),
      History.newFromFile parse maxE none =
        { entries := [], maxEntries := maxE }) ∧
    (∀ (parse : List Char → Option HistoryEntry) (bad : List Char)
      (l1 l2 : List (List Char)), parse bad = none →
      parseLines parse (l1 ++ bad :: l2) = parseLines parse (l1 ++ l2)) ∧
    (∀ (parse : List Char → Option HistoryEntry) (maxE : Nat)
      (ls : List (List Char)),
      (History.newFromFile parse maxE (some ls)).entries.length ≤ maxE) ∧
    (∀ (parse : List Char → Option HistoryEntry) (maxE : Nat)
      (ls : List (List Char)),
      (History.newFromFile parse maxE (some ls)).entries <:+
        parseLines parse ls) := by
  refine ⟨fun parse maxE => rfl, ?_, ?_, ?_⟩
  · intro parse bad l1 l2 hbad
    rw [parseLines_append, parseLines_append, parseLines_skip parse bad hbad]
  · intro parse maxE ls
    show (evictFront maxE (parseLines parse ls)).length ≤ maxE
    rw [evictFront_length]
    exact Nat.min_le_left _ _
  · intro parse maxE ls
    exact evictFront_suffix _ _

/-- Witness for C7: a corrupt middle line is skipped and the rest loads. -/
theorem claim_C7_witness :
    parseLines (fun l => if l = "ok".data then some ⟨l, 0⟩ else none)
        (["ok".data] ++ "bad".data :: ["ok".data]) =
      parseLines (fun l => if l = "ok".data then some ⟨l, 0⟩ else none)
        (["ok".data] ++ ["ok".data]) :=
  claim_C7.2.1 (fun l => if l = "ok".data then some ⟨l, 0⟩ else none)
    "bad".data ["ok".data] ["ok".data] (by decide)

/-- C8: for any text with non-empty trim, add updates the in-memory
sequence before attempting the durable write, returns exactly the write
outcome, and when the write fails the error is surfaced while the
in-memory sequence still contains the new entry (no rollback). -/
theorem claim_C8 (save : List HistoryEntry → Except String Unit)
    (h : History) (text : List Char) (ts : Nat)
    (ht : (rustTrim text).isEmpty = false) :
    (History.addWith save h text ts).1 = History.add h text ts ∧
    (History.addWith save h text ts).2 =
      save ((History.add h text ts).entries) ∧
    (∀ msg : String, save ((History.add h text ts).entries) = .error msg →
      (History.addWith save h text ts).2 = .error msg ∧
      (1 ≤ h.maxEntries →
        (⟨text, ts⟩ : HistoryEntry) ∈
          (History.addWith save h text ts).1.entries)) := by
  have h1 : History.addWith save h text ts =
      (History.add h text ts, save ((History.add h text ts).entries)) := by
    unfold History.addWith
    simp [ht]
  refine ⟨by rw [h1], by rw [h1], ?_⟩
  intro msg hmsg
  refine ⟨by rw [h1]; exact hmsg, ?_⟩
  intro hm
  rw [h1]
  show (⟨text, ts⟩ : HistoryEntry) ∈ (History.add h text ts).entries
  unfold History.add
  simp only [ht, Bool.false_eq_true, if_false]
  exact mem_evictFront_append _ _ _ hm

/-- Witness for C8: a failing durable write surfaces its error while the
entry stays in memory. -/
theorem claim_C8_witness :
    (History.addWith (fun _ => .error "disk full") ⟨[], 2⟩ "a".data 0).2 =
      .error "disk full" ∧
    (⟨"a".data, 0⟩ : HistoryEntry) ∈
      (History.addWith (fun _ => .error "disk full") ⟨[], 2⟩
        "a".data 0).1.entries :=
  ⟨((claim_C8 (fun _ => .error "disk full") ⟨[], 2⟩ "a".data 0
      (by decide)).2.2 "disk full" rfl).1,
   ((claim_C8 (fun _ => .error "disk full") ⟨[], 2⟩ "a".data 0
      (by decide)).2.2 "disk full" rfl).2 (by decide)⟩

/-- C10: for any text with non-empty trim and a positive bound, the entry
add stores is exactly the submitted text, untrimmed: the freshly stored
last entry carries the original string with all its whitespace. -/
theorem claim_C10 (h : History) (text : List Char) (ts : Nat)
    (ht : (rustTrim text).isEmpty = false) (hm : 1 ≤ h.maxEntries) :
    (History.add h text ts).entries.getLast? = some ⟨text, ts⟩ := by
  unfold History.add
  simp only [ht, Bool.false_eq_true, if_false]
  exact evictFront_append_getLast _ _ _ hm

/-- Witness for C10: text with surrounding whitespace is stored verbatim. -/
theorem claim_C10_witness :
    (History.add ⟨[], 5⟩ "  hi  ".data 7).entries.getLast? =
      some ⟨"  hi  ".data, 7⟩ :=
  claim_C10 ⟨[], 5⟩ "  hi  ".data 7 (by decide) (by decide)

/-- Reduction of simulate_paste once the never-empty part list is split
off: the result is determined by the classification loop. -/
theorem simulate_paste_eq (s : List Char) :
    simulate_paste s =
      match collectKeys ((rustSplit '+' s).map rustTrim) [] none with
      | .error e => .error e
      | .ok (_, none) => .error .noMainKey
      | .ok (modifiers, some mainKey) =>
        .ok ((modifiers.map keyDown) ++ [keyDown mainKey, keyUp mainKey] ++
          ((modifiers.reverse).map keyUp)) := by
  unfold simulate_paste
  simp [parts_ne_empty]

/-- C2: whenever the shortcut string classifies to modifiers m1..mk (in
string order) and main key K, the synthesized event sequence is exactly
m1-down..mk-down, K-down, K-up, mk-up..m1-up (modifiers released in
reverse); in particular Ctrl+Shift+V yields exactly the six events
Ctrl-down, Shift-down, V-down, V-up, Shift-up, Ctrl-up. -/
theorem claim_C2 (s : List Char) (mods : List Nat) (k : Nat)
    (h : collectKeys ((rustSplit '+' s).map rustTrim) [] none =
      .ok (mods, some k)) :
    simulate_paste s =
      .ok ((mods.map keyDown) ++ [keyDown k, keyUp k] ++
        ((mods.reverse).map keyUp)) ∧
    simulate_paste "Ctrl+Shift+V".data =
      .ok [keyDown VK_CONTROL, keyDown VK_SHIFT, keyDown 0x56, keyUp 0x56,
        keyUp VK_SHIFT, keyUp VK_CONTROL] := by
  refine ⟨?_, by decide⟩
  rw [simulate_paste_eq, h]

/-- Witness for C2 at the Ctrl+Shift+V shortcut. -/
theorem claim_C2_witness :
    simulate_paste "Ctrl+Shift+V".data =
      .ok (([VK_CONTROL, VK_SHIFT].map keyDown) ++
        [keyDown 0x56, keyUp 0x56] ++
        (([VK_CONTROL, VK_SHIFT].reverse).map keyUp)) :=
  (claim_C2 "Ctrl+Shift+V".data [VK_CONTROL, VK_SHIFT] 0x56 (by decide)).1

/-- C3 counterexample: parsing the empty string does not fail with the
empty-shortcut error; splitting on the plus sign yields the single empty
token, which reaches parse_key and produces the unknown-key error, so the
parts.is_empty() branch is dead code. -/
theorem claim_C3_counterexample :
    simulate_paste "".data = .error (.unknownKey "".data) ∧
    ParseError.unknownKey "".data ≠ ParseError.emptyShortcut :=
  ⟨by decide, by decide⟩

/-- C3 (amended): parsing the empty string fails with the UnknownKey error
naming the empty token (not EmptyShortcut, whose branch is unreachable);
a string whose tokens are all modifiers fails with NoMainKey; and a string
containing a token that is neither a modifier nor a recognized key fails
with an UnknownKey error. -/
theorem claim_C3 :
    simulate_paste "".data = .error (.unknownKey "".data) ∧
    (∀ s : List Char,
      (∀ p ∈ (rustSplit '+' s).map rustTrim, (modOf p).isSome = true) →
      simulate_paste s = .error .noMainKey) ∧
    (∀ s : List Char,
      (∃ p ∈ (rustSplit '+' s).map rustTrim, modOf p = none ∧
        (parse_key (rustUpper p)).isOk = false) →
      ∃ u, simulate_paste s = .error (.unknownKey u)) := by
  refine ⟨by decide, ?_, ?_⟩
  · intro s hall
    obtain ⟨mods2, hm⟩ := collectKeys_all_mods _ [] hall
    rw [simulate_paste_eq, hm]
  · intro s hex
    obtain ⟨u, hu⟩ := collectKeys_has_unknown _ [] none hex
    exact ⟨u, by rw [simulate_paste_eq, hu]⟩

/-- Witness for C3 at the Ctrl+Shift and Ctrl+Foo shortcuts. -/
theorem claim_C3_witness :
    simulate_paste "Ctrl+Shift".data = .error .noMainKey ∧
    ∃ u, simulate_paste "Ctrl+Foo".data = .error (.unknownKey u) :=
  ⟨claim_C3.2.1 "Ctrl+Shift".data (by decide),
   claim_C3.2.2 "Ctrl+Foo".data (by decide)⟩

/-- C4 counterexample: Cmd and Command are not classified as the super
modifier by the replay parser; they fall through to parse_key and fail as
unknown keys, while Win (and Super, Meta) is accepted as a modifier. -/
theorem claim_C4_counterexample :
    simulate_paste "Cmd+V".data = .error (.unknownKey "CMD".data) ∧
    simulate_paste "Command+V".data =
      .error (.unknownKey "COMMAND".data) ∧
    simulate_paste "Win+V".data =
      .ok [keyDown VK_LWIN, keyDown 0x56, keyUp 0x56, keyUp VK_LWIN] :=
  ⟨by decide, by decide, by decide⟩

/-- C4 (amended): the replay parser splits on the plus sign, trims and
uppercases each token; Ctrl/Control, Shift and Alt map to their modifiers
and Win, Super and Meta (but not Cmd or Command) map to the single super
modifier; every other token is parsed as the main key, and when several
non-modifier tokens appear the last recognized one becomes the main key,
the modifiers keeping their order of appearance. -/
theorem claim_C4 (s : List Char)
    (hgood : ∀ p ∈ (rustSplit '+' s).map rustTrim,
      (modOf p).isSome = true ∨ (parse_key (rustUpper p)).isOk = true)
    (k : Nat)
    (hlast : (keyToks ((rustSplit '+' s).map rustTrim)).getLast? = some k) :
    simulate_paste s =
      .ok (((((rustSplit '+' s).map rustTrim).filterMap modOf).map keyDown) ++
        [keyDown k, keyUp k] ++
        (((((rustSplit '+' s).map rustTrim).filterMap modOf).reverse).map
          keyUp)) := by
  have hg := collectKeys_good ((rustSplit '+' s).map rustTrim) [] none hgood
  have hne : keyToks ((rustSplit '+' s).map rustTrim) ≠ [] := by
    intro hnil
    rw [hnil, List.getLast?_nil] at hlast
    exact Option.noConfusion hlast
  rw [lastWins_eq_getLast _ none hne, hlast] at hg
  rw [simulate_paste_eq, hg]
  simp

/-- Witness for C4: in Shift+V+Insert the last recognized key token wins
and Shift stays the only modifier. -/
theorem claim_C4_witness :
    simulate_paste "Shift+V+Insert".data =
      .ok ((((rustSplit '+' "Shift+V+Insert".data).map
          rustTrim).filterMap modOf).map keyDown ++
        [keyDown VK_INSERT, keyUp VK_INSERT] ++
        ((((rustSplit '+' "Shift+V+Insert".data).map
          rustTrim).filterMap modOf).reverse.map keyUp)) :=
  claim_C4 "Shift+V+Insert".data (by decide) VK_INSERT (by decide)

/-- A find? scan returns the first matching element: everything before it
fails the predicate. -/
theorem find?_append_first {A : Type} (pr : A → Bool) (l1 l2 : List A)
    (o : A) (h1 : ∀ x ∈ l1, pr x = false) (ho : pr o = true) :
    (l1 ++ o :: l2).find? pr = some o := by
  induction l1 with
  | nil => simpa using List.find?_cons_of_pos l2 ho
  | cons a as ih =>
    have hna : ¬ pr a = true := by simp [h1 a (by simp)]
    rw [List.cons_append, List.find?_cons_of_neg _ hna]
    exact ih (fun x hx => h1 x (List.mem_cons_of_mem a hx))

/-- Override resolution with a captured process reduces to a find? scan of
the override list. -/
theorem resolveShortcut_some (p : List Char) (ovs : List AppPasteOverride)
    (d : List Char) :
    resolveShortcut (some p) ovs d =
      match ovs.find? (fun o => !(o.process_name.isEmpty) &&
          rustLower o.process_name = rustLower p) with
      | some o => o.shortcut
      | none => d := rfl

/-- When no override entry matches the captured process (each entry has an
empty process name or a different lowercased name), the default wins. -/
theorem resolveShortcut_no_match (p d : List Char)
    (ovs : List AppPasteOverride)
    (h1 : ∀ o1 ∈ ovs,
      o1.process_name = [] ∨ rustLower o1.process_name ≠ rustLower p) :
    resolveShortcut (some p) ovs d = d := by
  rw [resolveShortcut_some]
  have hnone : ovs.find? (fun o => !(o.process_name.isEmpty) &&
      rustLower o.process_name = rustLower p) = none := by
    rw [List.find?_eq_none]
    intro x hx
    rcases h1 x hx with hx1 | hx2
    · simp [hx1]
    · simp [hx2]
  rw [hnone]

/-- C5: override resolution returns the shortcut of the first entry whose
non-empty process name equals the captured process case-insensitively;
when no entry matches, or no foreground process was captured, the default
shortcut is returned; and entries with empty process names never match. -/
theorem claim_C5 :
    (∀ (p d : List Char) (l1 l2 : List AppPasteOverride)
      (o : AppPasteOverride),
      (∀ o1 ∈ l1,
        o1.process_name = [] ∨ rustLower o1.process_name ≠ rustLower p) →
      o.process_name ≠ [] → rustLower o.process_name = rustLower p →
      resolveShortcut (some p) (l1 ++ o :: l2) d = o.shortcut) ∧
    (∀ (p d : List Char) (ovs : List AppPasteOverride),
      (∀ o1 ∈ ovs,
        o1.process_name = [] ∨ rustLower o1.process_name ≠ rustLower p) →
      resolveShortcut (some p) ovs d = d) ∧
    (∀ (d : List Char) (ovs : List AppPasteOverride),
      resolveShortcut none ovs d = d) ∧
    (∀ (p d : List Char) (ovs : List AppPasteOverride),
      (∀ o1 ∈ ovs, o1.process_name = []) →
      resolveShortcut (some p) ovs d = d) ∧
    (∀ (p sc d : List Char) (ovs : List AppPasteOverride),
      resolveShortcut (some p) (⟨[], sc⟩ :: ovs) d =
        resolveShortcut (some p) ovs d) := by
  refine ⟨?_, fun p d ovs h1 => resolveShortcut_no_match p d ovs h1,
    fun d ovs => rfl,
    fun p d ovs h1 =>
      resolveShortcut_no_match p d ovs (fun o1 ho => Or.inl (h1 o1 ho)),
    fun p sc d ovs => by
      rw [resolveShortcut_some, resolveShortcut_some,
        List.find?_cons_of_neg _ (by simp)]⟩
  intro p d l1 l2 o h1 hne hlow
  rw [resolveShortcut_some]
  have hfirst : (l1 ++ o :: l2).find? (fun o2 => !(o2.process_name.isEmpty) &&
      rustLower o2.process_name = rustLower p) = some o := by
    apply find?_append_first
    · intro x hx
      rcases h1 x hx with hx1 | hx2
      · simp [hx1]
      · simp [hx2]
    · simp [hlow, List.isEmpty_iff, hne]
  rw [hfirst]

/-- Witness for C5 at the alacritty example of the specification. -/
theorem claim_C5_witness :
    resolveShortcut (some "ALACRITTY.EXE".data)
        ([] ++ ⟨"alacritty.exe".data, "Ctrl+Shift+V".data⟩ :: [])
        "Ctrl+V".data = "Ctrl+Shift+V".data ∧
    resolveShortcut (some "notepad.exe".data)
        [⟨"alacritty.exe".data, "Ctrl+Shift+V".data⟩] "Ctrl+V".data =
      "Ctrl+V".data ∧
    resolveShortcut none [⟨"alacritty.exe".data, "Ctrl+Shift+V".data⟩]
        "Ctrl+V".data = "Ctrl+V".data :=
  ⟨claim_C5.1 "ALACRITTY.EXE".data "Ctrl+V".data [] []
      ⟨"alacritty.exe".data, "Ctrl+Shift+V".data⟩ (by simp) (by decide)
      (by decide),
   claim_C5.2.1 "notepad.exe".data "Ctrl+V".data
      [⟨"alacritty.exe".data, "Ctrl+Shift+V".data⟩] (by decide),
   claim_C5.2.2.1 "Ctrl+V".data
      [⟨"alacritty.exe".data, "Ctrl+Shift+V".data⟩]⟩

/-- The registration loop finds the first accepted candidate. -/
theorem registerLoop_snd {A : Type} (accepts : A → Bool) (cands : List A) :
    (registerLoop accepts cands).2 = cands.find? accepts := by
  induction cands with
  | nil => rfl
  | cons c rest ih =>
    cases hc : accepts c with
    | true => simp [registerLoop, hc, List.find?_cons_of_pos _ hc]
    | false =>
      have hcf : ¬ accepts c = true := by simp [hc]
      simp [registerLoop, hc, List.find?_cons_of_neg _ hcf, ih]

/-- When some candidate is accepted, the attempted candidates are exactly
the rejected ones before it followed by the accepted one; later candidates
are never attempted. -/
theorem registerLoop_fst_found {A : Type} (accepts : A → Bool)
    (cands : List A) :
    ∀ c : A, cands.find? accepts = some c →
    (registerLoop accepts cands).1 =
      cands.takeWhile (fun x => !(accepts x)) ++ [c] := by
  induction cands with
  | nil =>
    intro c h
    exact absurd h (by simp)
  | cons a rest ih =>
    intro c h
    cases ha : accepts a with
    | true =>
      rw [List.find?_cons_of_pos _ ha] at h
      injection h with h
      subst h
      simp [registerLoop, ha, List.takeWhile_cons]
    | false =>
      have haf : ¬ accepts a = true := by simp [ha]
      rw [List.find?_cons_of_neg _ haf] at h
      simp [registerLoop, ha, List.takeWhile_cons, ih c h]

/-- When no candidate is accepted, every candidate is attempted. -/
theorem registerLoop_fst_none {A : Type} (accepts : A → Bool)
    (cands : List A) (h : cands.find? accepts = none) :
    (registerLoop accepts cands).1 = cands := by
  induction cands with
  | nil => rfl
  | cons a rest ih =>
    cases ha : accepts a with
    | true =>
      rw [List.find?_cons_of_pos _ ha] at h
      exact absurd h (by simp)
    | false =>
      have haf : ¬ accepts a = true := by simp [ha]
      rw [List.find?_cons_of_neg _ haf] at h
      simp [registerLoop, ha, ih h]

/-- C9: hotkey registration attempts the candidates strictly in order and
stops at the first one the OS accepts: the registered candidate is the
first accepted one, the attempted list is the rejected ones followed by
it, and with candidates A, B, C where A fails and B succeeds the loop ends
registered to B having attempted only A and B, never C. -/
theorem claim_C9 :
    (∀ (A : Type) (accepts : A → Bool) (a b c : A),
      accepts a = false → accepts b = true →
      registerLoop accepts [a, b, c] = ([a, b], some b)) ∧
    (∀ (A : Type) (accepts : A → Bool) (cands : List A),
      (registerLoop accepts cands).2 = cands.find? accepts) ∧
    (∀ (A : Type) (accepts : A → Bool) (cands : List A) (c : A),
      cands.find? accepts = some c →
      (registerLoop accepts cands).1 =
        cands.takeWhile (fun x => !(accepts x)) ++ [c]) ∧
    (∀ (A : Type) (accepts : A → Bool) (cands : List A),
      cands.find? accepts = none →
      (registerLoop accepts cands).1 = cands) := by
  refine ⟨?_, fun A accepts cands => registerLoop_snd accepts cands,
    fun A accepts cands c h => registerLoop_fst_found accepts cands c h,
    fun A accepts cands h => registerLoop_fst_none accepts cands h⟩
  intro A accepts a b c ha hb
  simp [registerLoop, ha, hb]

/-- Witness for C9 at a concrete three-candidate list where the first
candidate is rejected and the second accepted. -/
theorem claim_C9_witness :
    registerLoop (fun n : Nat => n == 1) [0, 1, 2] = ([0, 1], some 1) :=
  claim_C9.1 Nat (fun n => n == 1) 0 1 2 (by decide) (by decide)
